import Mathlib

/-!
Shallow embedding of the streaming music-analysis engine of
`test_realtime_analysis.py` (class `MockMusicAnalysisEngine`).

Python floats are modelled as exact rationals (`ℚ`); Python lists as
`List`.  `list.append` followed by a conditional `pop(0)` is `pushCap`.
The per-tick body of `run_simulation` (append frame, `analyze_beat`,
`analyze_key`) is `ingest`.  All definitions below are translated from
the source; the few definitions translated from the spec's words are
explicitly marked as such in their doc comments.
-/

namespace RealtimeAnalysis

/-- `MockAudioFeatures`: chroma vector, magnitude spectrum, timestamp. -/
structure MockAudioFeatures where
  chroma : List ℚ
  magnitude : List ℚ
  timestamp : ℚ
deriving DecidableEq

instance : Inhabited MockAudioFeatures := ⟨⟨[], [], 0⟩⟩

/-- The two fixed mode templates of `self.key_profiles`. -/
inductive Mode where
  | major
  | minor
deriving DecidableEq

/-- `self.key_profiles` from `MockMusicAnalysisEngine.__init__`. -/
def keyProfile : Mode → List ℚ
  | Mode.major =>
      [635/100, 223/100, 348/100, 233/100, 438/100, 409/100,
       252/100, 519/100, 239/100, 366/100, 229/100, 288/100]
  | Mode.minor =>
      [633/100, 268/100, 352/100, 538/100, 260/100, 353/100,
       254/100, 475/100, 398/100, 269/100, 334/100, 317/100]

/-- `self.key_confidence_threshold = 0.05`. -/
def keyConfidenceThreshold : ℚ := 1/20

/-- Mutable state of `MockMusicAnalysisEngine`. -/
structure EngineState where
  feature_history : List MockAudioFeatures
  onset_strengths : List ℚ
  bpm_estimate : ℚ
  has_valid_bpm : Bool
deriving DecidableEq

/-- The state built by `MockMusicAnalysisEngine.__init__`. -/
def engineInit : EngineState := ⟨[], [], 120, true⟩

/-- `list.append(x)` followed by `if len(list) > cap: list.pop(0)`. -/
def pushCap {α : Type} (cap : ℕ) (xs : List α) (x : α) : List α :=
  if cap < (xs ++ [x]).length then (xs ++ [x]).tail else xs ++ [x]

/-- The positive-difference sum in `calculate_onset_strength`: indices run
over the shorter of the two magnitude vectors. -/
def spectralFlux (cur prev : List ℚ) : ℚ :=
  (List.zipWith (fun c p => if p < c then c - p else 0) cur prev).sum

/-- `calculate_onset_strength`: 0 when the feature history is empty,
otherwise the spectral flux against `feature_history[-1]`. -/
def calculate_onset_strength (s : EngineState) (features : MockAudioFeatures) : ℚ :=
  match s.feature_history.getLast? with
  | none => 0
  | some previous_features => spectralFlux features.magnitude previous_features.magnitude

/-- Python's `%` for rationals with the divisor positive: the result
lies in `[0, b)`. -/
def pymod (a b : ℚ) : ℚ := a - b * ⌊a / b⌋

/-- The dictionary returned by `track_beats` / `analyze_beat`. -/
structure BeatInfo where
  bpm : ℚ
  confidence : ℚ
  beat_position : ℚ
  measure_position : ℤ
deriving DecidableEq

/-- Peak detection inside `track_beats`: `for i in range(1, len-1)` keeps
`i` with `onset[i] > onset[i-1]`, `onset[i] > onset[i+1]`, `onset[i] > 0.1`. -/
def peakIndices (xs : List ℚ) : List ℕ :=
  (List.range (xs.length - 1)).filter fun i =>
    decide (1 ≤ i ∧ xs.getD (i-1) 0 < xs.getD i 0 ∧
      xs.getD (i+1) 0 < xs.getD i 0 ∧ 1/10 < xs.getD i 0)

/-- Consecutive peak-index gaps (`peaks[i] - peaks[i-1]`). -/
def peakIntervals (peaks : List ℕ) : List ℚ :=
  List.zipWith (fun a b : ℕ => (a : ℚ) - (b : ℚ)) peaks.tail peaks

/-- `sum(intervals) / len(intervals)`. -/
def avgIntervalOf (xs : List ℚ) : ℚ :=
  let intervals := peakIntervals (peakIndices xs)
  intervals.sum / intervals.length

/-- `estimated_bpm = 60.0 * 43.0 / avg_interval`. -/
def bpmOf (xs : List ℚ) : ℚ := 60 * 43 / avgIntervalOf xs

/-- The dictionary of the cold-start branch (`len < 3`). -/
def coldStartHold (est : ℚ) : BeatInfo := ⟨est, 1/10, 0, 1⟩

/-- The fallback dictionary at the end of `track_beats`:
`beat_position = current_time % 1.0`, `measure_position = int(current_time % 4) + 1`.
`current_time % 4` is in `[0,4)`, so `int` truncation is the floor. -/
def fallbackHold (est t : ℚ) : BeatInfo := ⟨est, 1/10, pymod t 1, ⌊pymod t 4⌋ + 1⟩

/-- `track_beats(onset_strengths, current_time)`. -/
def track_beats (onset_strengths : List ℚ) (bpm_estimate : ℚ) (current_time : ℚ) : BeatInfo :=
  if onset_strengths.length < 3 then coldStartHold bpm_estimate
  else
    let peaks := peakIndices onset_strengths
    if 1 < peaks.length then
      let estimated_bpm := bpmOf onset_strengths
      if 60 ≤ estimated_bpm ∧ estimated_bpm ≤ 200 then
        ⟨estimated_bpm, min 1 ((peaks.length : ℚ) / 10),
          pymod current_time 1, ⌊pymod current_time 4⌋ + 1⟩
      else fallbackHold bpm_estimate current_time
    else fallbackHold bpm_estimate current_time

/-- `analyze_beat(features)`: push the onset strength (capacity 50), hold
if fewer than 3 samples, otherwise run `track_beats` and apply the
two-rule BPM adoption policy. -/
def analyze_beat (s : EngineState) (features : MockAudioFeatures) : EngineState × BeatInfo :=
  let current_time := features.timestamp
  let onset_strength := calculate_onset_strength s features
  let onsets := pushCap 50 s.onset_strengths onset_strength
  let s1 : EngineState := { s with onset_strengths := onsets }
  if onsets.length < 3 then
    (s1, ⟨s.bpm_estimate, 1/10, 0, 1⟩)
  else
    let beat_info := track_beats onsets s.bpm_estimate current_time
    let s2 : EngineState :=
      if 0 < beat_info.bpm ∧ 1/100 < beat_info.confidence then
        { s1 with bpm_estimate := beat_info.bpm, has_valid_bpm := true }
      else if 0 < beat_info.bpm ∧ 10 < onsets.length then
        { s1 with bpm_estimate := beat_info.bpm, has_valid_bpm := true }
      else s1
    (s2, beat_info)

/-- One key hypothesis record of the `key_scores` list. -/
structure KeyHypothesis where
  root : ℕ
  mode : Mode
  score : ℚ
deriving DecidableEq

/-- `calculate_fast_key_score(chroma, root, mode)`. -/
def calculate_fast_key_score (chroma : List ℚ) (root : ℕ) (mode : Mode) : ℚ :=
  let profile := keyProfile mode
  let profile_sum := profile.sum
  let correlation :=
    ((List.range 12).map fun i =>
      chroma.getD i 0 * profile.getD ((i + root) % 12) 0).sum
  let normalized_correlation := if 0 < profile_sum then correlation / profile_sum else 0
  normalized_correlation + chroma.getD root 0 * (1/5)

/-- The `key_scores` list: roots 0..11, mode major before minor. -/
def keyScores (chroma : List ℚ) : List KeyHypothesis :=
  (List.range 12).flatMap fun root =>
    [⟨root, Mode.major, calculate_fast_key_score chroma root Mode.major⟩,
     ⟨root, Mode.minor, calculate_fast_key_score chroma root Mode.minor⟩]

/-- Head of `key_scores` after the stable descending sort on `score`
(`sort(key=..., reverse=True)` keeps original order among equal scores,
so the head is the first hypothesis attaining the maximal score). -/
def bestHypothesis (chroma : List ℚ) : KeyHypothesis :=
  (keyScores chroma).foldl (fun b x => if b.score < x.score then x else b)
    ⟨0, Mode.major, calculate_fast_key_score chroma 0 Mode.major⟩

/-- `total_weight` accumulated in `analyze_key`: `sum((k+1)/n for k in range(n))`. -/
def totalWeightQ (n : ℕ) : ℚ :=
  ((List.range n).map fun k : ℕ => ((k : ℚ) + 1) / (n : ℚ)).sum

/-- The window `self.feature_history[-min(20, len):]`. -/
def recentWindow (fh : List MockAudioFeatures) : List MockAudioFeatures :=
  fh.drop (fh.length - min 20 fh.length)

/-- The raw weighted chroma accumulator of `analyze_key`:
`weighted_chroma[p] = sum(recent[k].chroma[p] * (k+1)/n)`. -/
def weightedChromaRaw (recent : List MockAudioFeatures) : List ℚ :=
  (List.range 12).map fun p =>
    ((List.range recent.length).map fun k =>
      (recent.getD k default).chroma.getD p 0 * (((k : ℚ) + 1) / recent.length)).sum

/-- Weighted chroma of `analyze_key` after the guarded normalization
(`if total_weight > 0: divide`). -/
def weightedChroma (fh : List MockAudioFeatures) : List ℚ :=
  let recent := recentWindow fh
  let raw := weightedChromaRaw recent
  let total_weight := totalWeightQ recent.length
  if 0 < total_weight then raw.map (· / total_weight) else raw

/-- Best hypothesis of `analyze_key` for a feature history. -/
def bestKeyHypothesis (fh : List MockAudioFeatures) : KeyHypothesis :=
  bestHypothesis (weightedChroma fh)

/-- The dictionary returned by `analyze_key` (the display name string is
print-only and omitted). -/
structure KeyResult where
  root : ℕ
  mode : Mode
  confidence : ℚ
deriving DecidableEq

/-- `analyze_key()`: two-tier acceptance on the best hypothesis score;
the relaxed tier needs `len(feature_history) > 15` and a score strictly
above `threshold * 0.5`, and dampens the confidence by `0.8`. -/
def analyze_key (s : EngineState) : Option KeyResult :=
  if s.feature_history.length < 1 then none
  else
    let best := bestKeyHypothesis s.feature_history
    if keyConfidenceThreshold ≤ best.score then
      some ⟨best.root, best.mode, best.score⟩
    else if 15 < s.feature_history.length ∧ keyConfidenceThreshold * (1/2) < best.score then
      some ⟨best.root, best.mode, best.score * (4/5)⟩
    else none

/-- Per-tick body of `run_simulation`: the frame is appended to
`feature_history` (capacity 100) BEFORE `analyze_beat` runs, then
`analyze_key` is evaluated on the updated state. -/
def ingest (s : EngineState) (features : MockAudioFeatures) :
    EngineState × BeatInfo × Option KeyResult :=
  let s1 : EngineState :=
    { s with feature_history := pushCap 100 s.feature_history features }
  let pair := analyze_beat s1 features
  (pair.1, pair.2, analyze_key pair.1)

/-- Run a fresh engine over a list of frames, keeping the final state. -/
def runEngine (frames : List MockAudioFeatures) : EngineState :=
  frames.foldl (fun s f => (ingest s f).1) engineInit

/-- The frame-validity predicate of the spec's input contract: chroma of
length 12, entries non-negative, summing to at most 1 (1 when non-silent,
0 on silence). -/
def validFrame (f : MockAudioFeatures) : Prop :=
  f.chroma.length = 12 ∧ (∀ x ∈ f.chroma, 0 ≤ x) ∧ f.chroma.sum ≤ 1

instance : DecidablePred validFrame := fun f => by
  unfold validFrame; infer_instance

/-- Root and mode of a published key estimate. -/
def keyRootMode (o : Option KeyResult) : Option (ℕ × Mode) :=
  o.map fun e => (e.root, e.mode)

/-- Confidence of a published key estimate (0 when none). -/
def keyConfidenceOf (o : Option KeyResult) : ℚ :=
  (o.map KeyResult.confidence).getD 0

/-- A frame with uniform chroma and flat magnitude 0.5 on three bins. -/
def flatFrame (t : ℚ) : MockAudioFeatures :=
  ⟨List.replicate 12 (1/12), [1/2, 1/2, 1/2], t⟩

/-- Same as `flatFrame` but with a magnitude spike (delta 1) at index 0. -/
def spikeFrame (t : ℚ) : MockAudioFeatures :=
  ⟨List.replicate 12 (1/12), [3/2, 1/2, 1/2], t⟩

/-- Claim C1's scenario: 5 flat frames, one spike frame, 5 more flat frames. -/
def c1Frames : List MockAudioFeatures :=
  [flatFrame 0, flatFrame 1, flatFrame 2, flatFrame 3, flatFrame 4,
   spikeFrame 5, flatFrame 6, flatFrame 7, flatFrame 8, flatFrame 9, flatFrame 10]

/-- A frame whose chroma has a negative entry: malformed per the input
contract. -/
def badFrame : MockAudioFeatures :=
  ⟨[-1, 0, 0, 0, 0, 0, 0, 0, 0, 0, 0, 0], [1/2], 0⟩

/-- A frame with uniform chroma 1/48 (sums to 1/4). -/
def uniformLowFrame : MockAudioFeatures := ⟨List.replicate 12 (1/48), [], 0⟩

/-- An engine state holding 16 copies of `uniformLowFrame`. -/
def st16 : EngineState := ⟨List.replicate 16 uniformLowFrame, [], 120, true⟩

/-- A frame whose chroma is the normalized major profile. -/
def majorChromaFrame : MockAudioFeatures :=
  ⟨(keyProfile Mode.major).map (· / (keyProfile Mode.major).sum), [], 0⟩

/-- An engine state holding `n` copies of `majorChromaFrame`. -/
def stMajor (n : ℕ) : EngineState :=
  ⟨List.replicate n majorChromaFrame, [], 120, true⟩

/-- Modelled from the spec: the claim C8 peak predicate, which requires
`1 < i < len-1` (the source uses `range(1, len-1)`, i.e. `1 ≤ i`). -/
def specPeakIndices (xs : List ℚ) : List ℕ :=
  (List.range (xs.length - 1)).filter fun i =>
    decide (1 < i ∧ xs.getD (i-1) 0 < xs.getD i 0 ∧
      xs.getD (i+1) 0 < xs.getD i 0 ∧ 1/10 < xs.getD i 0)

/-- Modelled from the spec: bpm computed from the claim C8 peak list. -/
def specBpm (xs : List ℚ) : ℚ :=
  let intervals := peakIntervals (specPeakIndices xs)
  60 * 43 / (intervals.sum / intervals.length)

/-- Onset history for claim C8's counterexample: salient values at
indices 1, 16 and 30 of a 32-sample history. -/
def c8cx : List ℚ :=
  [0, 1, 0, 0, 0, 0, 0, 0, 0, 0, 0, 0, 0, 0, 0, 0,
   1, 0, 0, 0, 0, 0, 0, 0, 0, 0, 0, 0, 0, 0, 1, 0]

end RealtimeAnalysis

namespace RealtimeAnalysis

/-- Claim C1: the claim expects the recorded onset strength of a tick to
be the spectral flux against the previous frame, so its scenario (5 flat
frames, a magnitude spike of delta 1, 5 more flat frames) should record
exactly one non-zero onset sample equal to 1.  The code appends the new
frame to `feature_history` before `analyze_beat` runs, so
`calculate_onset_strength` compares the frame with itself and every
recorded onset sample is 0. -/
theorem c1_all_onsets_zero :
    spectralFlux (spikeFrame 5).magnitude (flatFrame 4).magnitude = 1 ∧
    (runEngine c1Frames).onset_strengths = List.replicate 11 0 ∧
    ((runEngine c1Frames).onset_strengths.filter fun x => decide (x ≠ 0)).length = 0 := by
  with_unfolding_all decide

/-- Claim C4, counterexample: a 3-sample onset history with no peaks at
time 0.5 makes `track_beats` return beat position 0.5, not the cold-start
shape with beat position 0 and measure position 1 predicted by the claim. -/
theorem c4_counterexample :
    (peakIndices [0, 0, 0]).length < 2 ∧ 3 ≤ ([0, 0, 0] : List ℚ).length ∧
    track_beats [0, 0, 0] 120 (1/2) ≠ coldStartHold 120 ∧
    (track_beats [0, 0, 0] 120 (1/2)).beat_position = 1/2 := by
  with_unfolding_all decide

/-- Claim C5, counterexample: a malformed frame (negative chroma entry)
fed to a fresh engine is admitted into the feature history and an onset
sample is recorded for the tick; no validation rejection exists. -/
theorem c5_counterexample :
    ¬ validFrame badFrame ∧
    ((ingest engineInit badFrame).1).feature_history = [badFrame] ∧
    ((ingest engineInit badFrame).1).onset_strengths = [0] := by
  with_unfolding_all decide

set_option maxRecDepth 100000 in
/-- Claim C6, counterexample: with 16 frames of uniform chroma 1/48 the
best hypothesis score is exactly `threshold * 0.5 = 1/40`; the claim's
relaxed tier (score `≥ threshold * 0.5`, history longer than 15) would
publish, but the code's strict `>` comparison returns none. -/
theorem c6_counterexample :
    15 < st16.feature_history.length ∧
    (bestKeyHypothesis st16.feature_history).score = keyConfidenceThreshold * (1/2) ∧
    analyze_key st16 = none := by
  with_unfolding_all decide

set_option maxRecDepth 100000 in
/-- Claim C7: feeding the normalized major profile as chroma yields the
key estimate root 0 (C), mode major, with confidence at least 0.05, both
at the first evaluated tick (history length 1) and with 20 accumulated
frames. -/
theorem c7_major_profile_detected :
    keyRootMode (analyze_key (stMajor 1)) = some (0, Mode.major) ∧
    1/20 ≤ keyConfidenceOf (analyze_key (stMajor 1)) ∧
    keyRootMode (analyze_key (stMajor 20)) = some (0, Mode.major) ∧
    1/20 ≤ keyConfidenceOf (analyze_key (stMajor 20)) := by
  with_unfolding_all decide

/-- Claim C8, counterexample: on an onset history whose code-found peaks
are 1, 16, 30, the claim's peak predicate (`1 < i`) sees only peaks 16
and 30 and predicts bpm `60*43/14 = 1290/7`; the code also counts the
peak at index 1 and returns `5160/29`.  All of the claim's hypotheses
(length ≥ 3, at least 2 of its peaks, its bpm inside [60,200]) hold. -/
theorem c8_counterexample :
    3 ≤ c8cx.length ∧ 2 ≤ (specPeakIndices c8cx).length ∧
    60 ≤ specBpm c8cx ∧ specBpm c8cx ≤ 200 ∧
    (track_beats c8cx 120 0).bpm ≠ specBpm c8cx := by
  with_unfolding_all decide

end RealtimeAnalysis

namespace RealtimeAnalysis

theorem pushCap_length {α : Type} (cap : ℕ) (xs : List α) (x : α)
    (h : xs.length ≤ cap) :
    (pushCap cap xs x).length = min cap (xs.length + 1) := by
  unfold pushCap
  split <;>
    simp only [List.length_tail, List.length_append, List.length_cons,
      List.length_nil] at * <;> omega

theorem pushCap_of_lt {α : Type} (cap : ℕ) (xs : List α) (x : α)
    (h : xs.length < cap) : pushCap cap xs x = xs ++ [x] := by
  unfold pushCap
  rw [if_neg]
  simp only [List.length_append, List.length_cons, List.length_nil]
  omega

theorem pushCap_of_full {α : Type} (cap : ℕ) (xs : List α) (x : α)
    (h : xs.length = cap) (hcap : 1 ≤ cap) :
    pushCap cap xs x = xs.tail ++ [x] := by
  unfold pushCap
  rw [if_pos]
  · cases xs with
    | nil => simp at h; omega
    | cons a l => rfl
  · simp only [List.length_append, List.length_cons, List.length_nil]
    omega

theorem pushCap_getLast? {α : Type} (cap : ℕ) (xs : List α) (x : α)
    (hcap : 1 ≤ cap) : (pushCap cap xs x).getLast? = some x := by
  unfold pushCap
  split
  · cases xs with
    | nil => simp at *; omega
    | cons a l => simp [List.getLast?_concat]
  · simp [List.getLast?_concat]

theorem ingest_state_eq (s : EngineState) (f : MockAudioFeatures) :
    ((ingest s f).1).feature_history = pushCap 100 s.feature_history f ∧
    ((ingest s f).1).onset_strengths =
      pushCap 50 s.onset_strengths
        (calculate_onset_strength
          { s with feature_history := pushCap 100 s.feature_history f } f) := by
  simp only [ingest, analyze_beat]
  split
  · exact ⟨rfl, rfl⟩
  · split
    · exact ⟨rfl, rfl⟩
    · split
      · exact ⟨rfl, rfl⟩
      · exact ⟨rfl, rfl⟩

end RealtimeAnalysis

namespace RealtimeAnalysis

theorem floor_pymod_four (t : ℚ) : ⌊pymod t 4⌋ = ⌊t⌋ % 4 := by
  have h4 : (0 : ℚ) < 4 := by norm_num
  have hge : 0 ≤ pymod t 4 := by
    have h := Int.sub_floor_div_mul_nonneg t h4
    unfold pymod
    linarith
  have hlt : pymod t 4 < 4 := by
    have h := Int.sub_floor_div_mul_lt t h4
    unfold pymod
    linarith
  have hfl : ⌊pymod t 4⌋ = ⌊t⌋ - 4 * ⌊t / 4⌋ := by
    unfold pymod
    have h : t - 4 * (⌊t / 4⌋ : ℚ) = t - ((4 * ⌊t / 4⌋ : ℤ) : ℚ) := by
      push_cast
      ring
    rw [h, Int.floor_sub_int]
  have h0 : 0 ≤ ⌊pymod t 4⌋ := Int.floor_nonneg.mpr hge
  have h3 : ⌊pymod t 4⌋ < 4 := by
    have h := Int.floor_lt.mpr (show pymod t 4 < ((4 : ℤ) : ℚ) by exact_mod_cast hlt)
    exact h
  omega

theorem track_beats_bpm_range (onsets : List ℚ) (est t : ℚ)
    (h1 : 60 ≤ est) (h2 : est ≤ 200) :
    60 ≤ (track_beats onsets est t).bpm ∧ (track_beats onsets est t).bpm ≤ 200 := by
  simp only [track_beats, coldStartHold, fallbackHold]
  split_ifs with a b c
  · exact ⟨h1, h2⟩
  · exact c
  · exact ⟨h1, h2⟩
  · exact ⟨h1, h2⟩

theorem track_beats_bpm_positive (onsets : List ℚ) (est t : ℚ)
    (h1 : 0 < est) : 0 < (track_beats onsets est t).bpm := by
  simp only [track_beats, coldStartHold, fallbackHold]
  split_ifs with a b c
  · exact h1
  · linarith [c.1]
  · exact h1
  · exact h1

/-- Claim C4, amended: only the under-3-samples branch returns the
cold-start shape with beat position 0 and measure position 1; the
fewer-than-2-peaks and out-of-range-bpm cases return the sticky estimate
with confidence 0.1 but time-derived beat and measure positions. -/
theorem c4_hold_shapes (onsets : List ℚ) (est t : ℚ) :
    (onsets.length < 3 → track_beats onsets est t = coldStartHold est) ∧
    (3 ≤ onsets.length → (peakIndices onsets).length < 2 →
      track_beats onsets est t = fallbackHold est t) ∧
    (3 ≤ onsets.length → ¬ (60 ≤ bpmOf onsets ∧ bpmOf onsets ≤ 200) →
      track_beats onsets est t = fallbackHold est t) := by
  refine ⟨?_, ?_, ?_⟩
  · intro h
    simp only [track_beats]
    rw [if_pos h]
  · intro h hp
    simp only [track_beats]
    rw [if_neg (by omega), if_neg (by omega)]
  · intro h hb
    simp only [track_beats]
    rw [if_neg (by omega)]
    split_ifs with p
    · rfl
    · rfl

end RealtimeAnalysis

namespace RealtimeAnalysis

/-- Claim C8, amended: the peak predicate admits every interior index
`0 < i < len-1` (the source's `range(1, len-1)`), not only `1 < i`; with
that correction, on a qualifying tick the tracker returns
`bpm = 60*43/avgInterval`, `confidence = min(1, peakCount/10)`,
`beatPosition = t mod 1` and `measurePosition = (floor(t) mod 4) + 1`. -/
theorem c8_success_formula :
    (∀ (xs : List ℚ) (i : ℕ), i ∈ peakIndices xs ↔
      (1 ≤ i ∧ i + 1 < xs.length ∧ xs.getD (i-1) 0 < xs.getD i 0 ∧
        xs.getD (i+1) 0 < xs.getD i 0 ∧ 1/10 < xs.getD i 0)) ∧
    (∀ (onsets : List ℚ) (est t : ℚ), 3 ≤ onsets.length →
      2 ≤ (peakIndices onsets).length →
      60 ≤ bpmOf onsets → bpmOf onsets ≤ 200 →
      track_beats onsets est t =
        ⟨bpmOf onsets, min 1 (((peakIndices onsets).length : ℚ) / 10),
          pymod t 1, ⌊t⌋ % 4 + 1⟩) := by
  constructor
  · intro xs i
    unfold peakIndices
    simp only [List.mem_filter, List.mem_range, decide_eq_true_eq]
    constructor
    · rintro ⟨hr, h1, hA, hB, hC⟩
      exact ⟨h1, by omega, hA, hB, hC⟩
    · rintro ⟨h1, hlen, hA, hB, hC⟩
      exact ⟨by omega, h1, hA, hB, hC⟩
  · intro onsets est t h3 hp hb1 hb2
    simp only [track_beats]
    rw [if_neg (by omega), if_pos (by omega), if_pos ⟨hb1, hb2⟩,
      floor_pymod_four]

/-- Claim C3: the sticky bpm estimate starts at 120 and both it and the
published bpm stay inside [60,200] across every ingest tick; on the
258-bpm scenario (two peaks 10 ticks apart at tick rate 43) the tracker
returns the fallback holding the unchanged sticky estimate. -/
theorem c3_bpm_invariant :
    (60 ≤ engineInit.bpm_estimate ∧ engineInit.bpm_estimate ≤ 200) ∧
    (∀ (s : EngineState) (f : MockAudioFeatures),
      60 ≤ s.bpm_estimate → s.bpm_estimate ≤ 200 →
      (60 ≤ ((ingest s f).1).bpm_estimate ∧
        ((ingest s f).1).bpm_estimate ≤ 200) ∧
      (60 ≤ ((ingest s f).2.1).bpm ∧ ((ingest s f).2.1).bpm ≤ 200)) ∧
    (∀ est t : ℚ,
      track_beats [0, 1, 0, 0, 0, 0, 0, 0, 0, 0, 0, 1, 0] est t =
        fallbackHold est t) := by
  refine ⟨by norm_num [engineInit], ?_, ?_⟩
  · intro s f h1 h2
    simp only [ingest, analyze_beat]
    split
    · exact ⟨⟨h1, h2⟩, h1, h2⟩
    · have htr := track_beats_bpm_range
        (pushCap 50 s.onset_strengths (calculate_onset_strength
          { s with feature_history := pushCap 100 s.feature_history f } f))
        s.bpm_estimate f.timestamp h1 h2
      split_ifs with a b
      · exact ⟨htr, htr⟩
      · exact ⟨htr, htr⟩
      · exact ⟨⟨h1, h2⟩, htr⟩
  · intro est t
    have hpk : peakIndices [0, 1, 0, 0, 0, 0, 0, 0, 0, 0, 0, 1, 0] = [1, 11] := by
      with_unfolding_all decide
    have hbpm : bpmOf [0, 1, 0, 0, 0, 0, 0, 0, 0, 0, 0, 1, 0] = 258 := by
      with_unfolding_all decide
    simp only [track_beats, hpk, hbpm]
    rw [if_neg (by norm_num), if_pos (by norm_num), if_neg (by norm_num)]

end RealtimeAnalysis

namespace RealtimeAnalysis

theorem foldl_ingest_lengths (fs : List MockAudioFeatures) (s : EngineState)
    (hf : s.feature_history.length ≤ 100) (ho : s.onset_strengths.length ≤ 50) :
    (fs.foldl (fun s f => (ingest s f).1) s).feature_history.length
        = min 100 (s.feature_history.length + fs.length) ∧
    (fs.foldl (fun s f => (ingest s f).1) s).onset_strengths.length
        = min 50 (s.onset_strengths.length + fs.length) := by
  induction fs generalizing s with
  | nil =>
      simp only [List.foldl_nil, List.length_nil]
      omega
  | cons f fs ih =>
      have e := ingest_state_eq s f
      have lf : ((ingest s f).1).feature_history.length
          = min 100 (s.feature_history.length + 1) := by
        rw [e.1]
        exact pushCap_length 100 _ f hf
      have lo : ((ingest s f).1).onset_strengths.length
          = min 50 (s.onset_strengths.length + 1) := by
        rw [e.2]
        exact pushCap_length 50 _ _ ho
      have h1 : ((ingest s f).1).feature_history.length ≤ 100 := by omega
      have h2 : ((ingest s f).1).onset_strengths.length ≤ 50 := by omega
      have hrec := ih ((ingest s f).1) h1 h2
      simp only [List.foldl_cons, List.length_cons]
      omega

/-- Claim C9: history capacities hold for every session: after T ingest
ticks the feature history has length min(100, T) and the onset history
has length min(50, T); pushing appends when below capacity and drops the
oldest element (the head) when at capacity. -/
theorem c9_history_capacity :
    (∀ fs : List MockAudioFeatures,
      (runEngine fs).feature_history.length = min 100 fs.length ∧
      (runEngine fs).onset_strengths.length = min 50 fs.length) ∧
    (∀ {α : Type} (cap : ℕ) (xs : List α) (x : α),
      (xs.length < cap → pushCap cap xs x = xs ++ [x]) ∧
      (xs.length = cap → 1 ≤ cap → pushCap cap xs x = xs.tail ++ [x])) := by
  constructor
  · intro fs
    have h := foldl_ingest_lengths fs engineInit (by simp [engineInit])
      (by simp [engineInit])
    simpa [runEngine, engineInit] using h
  · intro α cap xs x
    exact ⟨fun h => pushCap_of_lt cap xs x h,
      fun h h2 => pushCap_of_full cap xs x h h2⟩

/-- Claim C5, amended: the code performs no frame validation at all:
every frame, malformed or not, is appended to the feature history (and
becomes its last element), and the tick proceeds normally, recording an
onset sample; no validation error channel exists. -/
theorem c5_no_validation (s : EngineState) (f : MockAudioFeatures) :
    ((ingest s f).1).feature_history = pushCap 100 s.feature_history f ∧
    ((ingest s f).1).feature_history.getLast? = some f ∧
    ((ingest s f).1).onset_strengths =
      pushCap 50 s.onset_strengths
        (calculate_onset_strength
          { s with feature_history := pushCap 100 s.feature_history f } f) := by
  refine ⟨(ingest_state_eq s f).1, ?_, (ingest_state_eq s f).2⟩
  rw [(ingest_state_eq s f).1]
  exact pushCap_getLast? 100 s.feature_history f (by norm_num)

theorem list_sum_map_div (l : List ℕ) (f : ℕ → ℚ) (c : ℚ) :
    (l.map fun k => f k / c).sum = (l.map f).sum / c := by
  induction l with
  | nil => simp
  | cons a l ih => simp [ih, add_div]

theorem list_range_map_add_one_sum (n : ℕ) :
    ((List.range n).map fun k : ℕ => ((k : ℚ) + 1)).sum = n * (n + 1) / 2 := by
  induction n with
  | zero => simp
  | succ m ih =>
      rw [List.range_succ, List.map_append, List.sum_append, ih]
      simp only [List.map_cons, List.map_nil, List.sum_cons, List.sum_nil]
      push_cast
      ring

theorem totalWeightQ_eq (n : ℕ) (h : 1 ≤ n) : totalWeightQ n = (n + 1) / 2 := by
  unfold totalWeightQ
  have hn : (n : ℚ) ≠ 0 := by
    exact_mod_cast Nat.one_le_iff_ne_zero.mp h
  rw [list_sum_map_div (List.range n) (fun k : ℕ => ((k : ℚ) + 1)) (n : ℚ),
    list_range_map_add_one_sum]
  field_simp
  ring

/-- Claim C10: the total weight of the key-estimation window of size
`n ≥ 1` is exactly `(n+1)/2`, hence strictly positive, and both profile
sums are strictly positive, so the guarded degenerate branches (skip
normalization on zero total weight, zero score on zero profile sum) are
unreachable: for every non-empty history the normalization division is
performed. -/
theorem c10_no_degenerate_branches :
    (∀ n : ℕ, 1 ≤ n → totalWeightQ n = (n + 1) / 2 ∧ 0 < totalWeightQ n) ∧
    0 < (keyProfile Mode.major).sum ∧ 0 < (keyProfile Mode.minor).sum ∧
    (∀ fh : List MockAudioFeatures, fh ≠ [] →
      weightedChroma fh = (weightedChromaRaw (recentWindow fh)).map
        (· / totalWeightQ (recentWindow fh).length)) := by
  refine ⟨?_, by with_unfolding_all decide, by with_unfolding_all decide, ?_⟩
  · intro n h
    have he := totalWeightQ_eq n h
    refine ⟨he, ?_⟩
    rw [he]
    positivity
  · intro fh hne
    have hlen : 1 ≤ (recentWindow fh).length := by
      unfold recentWindow
      rw [List.length_drop]
      have hz : fh.length ≠ 0 := by
        simpa [List.length_eq_zero] using hne
      omega
    have hpos : 0 < totalWeightQ (recentWindow fh).length := by
      rw [totalWeightQ_eq _ hlen]
      positivity
    unfold weightedChroma
    rw [if_pos hpos]

/-- Claim C6, amended: key acceptance is two-tier, but the relaxed tier
requires the best score to be STRICTLY greater than `threshold * 0.5`
(the source compares with `>`); with that correction the three branches
are exactly as claimed. -/
theorem c6_two_tier (s : EngineState) (h : 1 ≤ s.feature_history.length) :
    (keyConfidenceThreshold ≤ (bestKeyHypothesis s.feature_history).score →
      analyze_key s = some ⟨(bestKeyHypothesis s.feature_history).root,
        (bestKeyHypothesis s.feature_history).mode,
        (bestKeyHypothesis s.feature_history).score⟩) ∧
    ((bestKeyHypothesis s.feature_history).score < keyConfidenceThreshold →
      15 < s.feature_history.length →
      keyConfidenceThreshold * (1/2) < (bestKeyHypothesis s.feature_history).score →
      analyze_key s = some ⟨(bestKeyHypothesis s.feature_history).root,
        (bestKeyHypothesis s.feature_history).mode,
        (bestKeyHypothesis s.feature_history).score * (4/5)⟩) ∧
    ((bestKeyHypothesis s.feature_history).score < keyConfidenceThreshold →
      ¬ (15 < s.feature_history.length ∧
        keyConfidenceThreshold * (1/2) < (bestKeyHypothesis s.feature_history).score) →
      analyze_key s = none) := by
  refine ⟨?_, ?_, ?_⟩
  · intro h1
    simp only [analyze_key]
    rw [if_neg (by omega), if_pos h1]
  · intro h1 h2 h3
    simp only [analyze_key]
    rw [if_neg (by omega), if_neg (not_le.mpr h1), if_pos ⟨h2, h3⟩]
  · intro h1 h2
    simp only [analyze_key]
    rw [if_neg (by omega), if_neg (not_le.mpr h1), if_neg h2]

end RealtimeAnalysis

namespace RealtimeAnalysis

theorem list_range_map_sum_eq (n : ℕ) (f : ℕ → ℚ) :
    ((List.range n).map f).sum = ∑ i in Finset.range n, f i := rfl

theorem list_sum_div (l : List ℚ) (c : ℚ) :
    (l.map (· / c)).sum = l.sum / c := by
  induction l with
  | nil => simp
  | cons a l ih => simp [ih, add_div]

theorem getD_nonneg (l : List ℚ) (h : ∀ x ∈ l, 0 ≤ x) (i : ℕ) :
    0 ≤ l.getD i 0 := by
  rw [List.getD_eq_getElem?_getD]
  rcases lt_or_ge i l.length with hi | hi
  · rw [List.getElem?_eq_getElem hi]
    exact h _ (List.getElem_mem hi)
  · rw [List.getElem?_eq_none hi]
    exact le_refl 0

theorem getD_le_of_bound (l : List ℚ) (M : ℚ) (hM : 0 ≤ M)
    (h : ∀ x ∈ l, x ≤ M) (i : ℕ) : l.getD i 0 ≤ M := by
  rw [List.getD_eq_getElem?_getD]
  rcases lt_or_ge i l.length with hi | hi
  · rw [List.getElem?_eq_getElem hi]
    exact h _ (List.getElem_mem hi)
  · rw [List.getElem?_eq_none hi]
    exact hM

theorem sum_range_getD_eq (c : List ℚ) :
    ∑ i in Finset.range c.length, c.getD i 0 = c.sum := by
  induction c with
  | nil => simp
  | cons a l ih =>
      rw [List.length_cons, Finset.sum_range_succ']
      simp only [List.getD_cons_succ, List.getD_cons_zero, List.sum_cons]
      rw [ih]
      ring

theorem getD_le_sum (c : List ℚ) (h : ∀ x ∈ c, 0 ≤ x) (i : ℕ)
    (hi : i < c.length) : c.getD i 0 ≤ c.sum := by
  rw [← sum_range_getD_eq]
  exact Finset.single_le_sum (fun j _ => getD_nonneg c h j)
    (Finset.mem_range.mpr hi)

theorem score_bounds (chroma : List ℚ) (hlen : chroma.length = 12)
    (hpos : ∀ x ∈ chroma, 0 ≤ x) (hsum : chroma.sum ≤ 1)
    (root : ℕ) (hroot : root < 12) (mode : Mode) :
    0 ≤ calculate_fast_key_score chroma root mode ∧
    calculate_fast_key_score chroma root mode ≤ 1 := by
  have hS0 : 0 ≤ chroma.sum := List.sum_nonneg hpos
  have hb0 : 0 ≤ chroma.getD root 0 := getD_nonneg chroma hpos root
  have hbS : chroma.getD root 0 ≤ chroma.sum :=
    getD_le_sum chroma hpos root (by omega)
  have hprof_pos : ∀ x ∈ keyProfile mode, 0 ≤ x := by
    cases mode <;> with_unfolding_all decide
  have hprof_le : ∀ x ∈ keyProfile mode, x ≤ 7 := by
    cases mode <;> with_unfolding_all decide
  have hpS : 0 < (keyProfile mode).sum := by
    cases mode <;> with_unfolding_all decide
  have hkey : calculate_fast_key_score chroma root mode
      = (∑ i in Finset.range 12,
          chroma.getD i 0 * (keyProfile mode).getD ((i + root) % 12) 0)
          / (keyProfile mode).sum
        + chroma.getD root 0 * (1/5) := by
    simp only [calculate_fast_key_score]
    rw [list_range_map_sum_eq, if_pos hpS]
  have hcorr0 : 0 ≤ ∑ i in Finset.range 12,
      chroma.getD i 0 * (keyProfile mode).getD ((i + root) % 12) 0 :=
    Finset.sum_nonneg fun i _ =>
      mul_nonneg (getD_nonneg _ hpos _) (getD_nonneg _ hprof_pos _)
  have hcorr_le : (∑ i in Finset.range 12,
      chroma.getD i 0 * (keyProfile mode).getD ((i + root) % 12) 0)
      ≤ chroma.sum * 7 := by
    calc (∑ i in Finset.range 12,
        chroma.getD i 0 * (keyProfile mode).getD ((i + root) % 12) 0)
        ≤ ∑ i in Finset.range 12, chroma.getD i 0 * 7 :=
          Finset.sum_le_sum fun i _ =>
            mul_le_mul_of_nonneg_left
              (getD_le_of_bound _ 7 (by norm_num) hprof_le _)
              (getD_nonneg _ hpos _)
      _ = (∑ i in Finset.range 12, chroma.getD i 0) * 7 :=
          (Finset.sum_mul _ _ _).symm
      _ = chroma.sum * 7 := by
          rw [show (12 : ℕ) = chroma.length from hlen.symm, sum_range_getD_eq]
  rw [hkey]
  constructor
  · exact add_nonneg (div_nonneg hcorr0 hpS.le) (mul_nonneg hb0 (by norm_num))
  · cases mode with
    | major =>
        have hps : (keyProfile Mode.major).sum = 4179/100 := by
          simp only [keyProfile, List.sum_cons, List.sum_nil]
          norm_num
        rw [hps]
        have hdiv := (div_le_div_iff_of_pos_right
          (show (0:ℚ) < 4179/100 by norm_num)).mpr hcorr_le
        have h2 : (chroma.sum * 7) / (4179/100 : ℚ)
            = chroma.sum * (700/4179) := by ring
        rw [h2] at hdiv
        linarith
    | minor =>
        have hps : (keyProfile Mode.minor).sum = 4451/100 := by
          simp only [keyProfile, List.sum_cons, List.sum_nil]
          norm_num
        rw [hps]
        have hdiv := (div_le_div_iff_of_pos_right
          (show (0:ℚ) < 4451/100 by norm_num)).mpr hcorr_le
        have h2 : (chroma.sum * 7) / (4451/100 : ℚ)
            = chroma.sum * (700/4451) := by ring
        rw [h2] at hdiv
        linarith

end RealtimeAnalysis

namespace RealtimeAnalysis

theorem getD_mem_of_lt {α : Type} (l : List α) (d : α) (k : ℕ)
    (h : k < l.length) : l.getD k d ∈ l := by
  rw [List.getD_eq_getElem?_getD, List.getElem?_eq_getElem h]
  exact List.getElem_mem h

theorem weightedChromaRaw_length (recent : List MockAudioFeatures) :
    (weightedChromaRaw recent).length = 12 := by
  simp [weightedChromaRaw]

theorem weightedChromaRaw_nonneg (recent : List MockAudioFeatures)
    (hv : ∀ f ∈ recent, validFrame f) :
    ∀ x ∈ weightedChromaRaw recent, 0 ≤ x := by
  intro x hx
  simp only [weightedChromaRaw, List.mem_map, List.mem_range] at hx
  obtain ⟨p, hp, rfl⟩ := hx
  rw [list_range_map_sum_eq]
  refine Finset.sum_nonneg fun k hk => ?_
  have hk' : k < recent.length := Finset.mem_range.mp hk
  refine mul_nonneg ?_ (by positivity)
  exact getD_nonneg _ ((hv _ (getD_mem_of_lt recent default k hk')).2.1) _

theorem weightedChromaRaw_sum_le (recent : List MockAudioFeatures)
    (hv : ∀ f ∈ recent, validFrame f) :
    (weightedChromaRaw recent).sum ≤ totalWeightQ recent.length := by
  unfold weightedChromaRaw totalWeightQ
  rw [list_range_map_sum_eq]
  have hrw : (∑ p in Finset.range 12, ((List.range recent.length).map fun k : ℕ =>
        (recent.getD k default).chroma.getD p 0 * (((k : ℚ) + 1) / recent.length)).sum)
      = ∑ p in Finset.range 12, ∑ k in Finset.range recent.length,
          (recent.getD k default).chroma.getD p 0 * (((k : ℚ) + 1) / recent.length) :=
    Finset.sum_congr rfl fun p _ => list_range_map_sum_eq _ _
  rw [hrw, Finset.sum_comm, list_range_map_sum_eq]
  refine Finset.sum_le_sum fun k hk => ?_
  have hk' : k < recent.length := Finset.mem_range.mp hk
  have hval := hv _ (getD_mem_of_lt recent default k hk')
  rw [← Finset.sum_mul]
  have hc_sum : (∑ p in Finset.range 12, (recent.getD k default).chroma.getD p 0)
      = (recent.getD k default).chroma.sum := by
    rw [show (12 : ℕ) = (recent.getD k default).chroma.length from hval.1.symm,
      sum_range_getD_eq]
  rw [hc_sum]
  exact mul_le_of_le_one_left (by positivity) hval.2.2

theorem weightedChroma_props (fh : List MockAudioFeatures)
    (hv : ∀ f ∈ fh, validFrame f) (hne : fh ≠ []) :
    (weightedChroma fh).length = 12 ∧
    (∀ x ∈ weightedChroma fh, 0 ≤ x) ∧ (weightedChroma fh).sum ≤ 1 := by
  have hvr : ∀ f ∈ recentWindow fh, validFrame f :=
    fun f hf => hv f (List.mem_of_mem_drop hf)
  have hlen : 1 ≤ (recentWindow fh).length := by
    unfold recentWindow
    rw [List.length_drop]
    have hz : fh.length ≠ 0 := by simpa [List.length_eq_zero] using hne
    omega
  have hWpos : 0 < totalWeightQ (recentWindow fh).length := by
    rw [totalWeightQ_eq _ hlen]
    positivity
  have hwc : weightedChroma fh = (weightedChromaRaw (recentWindow fh)).map
      (· / totalWeightQ (recentWindow fh).length) := by
    unfold weightedChroma
    rw [if_pos hWpos]
  refine ⟨?_, ?_, ?_⟩
  · rw [hwc, List.length_map, weightedChromaRaw_length]
  · intro x hx
    rw [hwc] at hx
    simp only [List.mem_map] at hx
    obtain ⟨y, hy, rfl⟩ := hx
    exact div_nonneg (weightedChromaRaw_nonneg _ hvr y hy) hWpos.le
  · rw [hwc, list_sum_div, div_le_one hWpos]
    exact weightedChromaRaw_sum_le _ hvr

end RealtimeAnalysis

namespace RealtimeAnalysis

theorem foldl_best_mem (l : List KeyHypothesis) (b : KeyHypothesis) :
    l.foldl (fun b x => if b.score < x.score then x else b) b ∈ b :: l := by
  induction l generalizing b with
  | nil => simp
  | cons a l ih =>
      simp only [List.foldl_cons]
      have h := ih (if b.score < a.score then a else b)
      have h2 : (if b.score < a.score then a else b) = a ∨
          (if b.score < a.score then a else b) = b := by
        split
        · exact Or.inl rfl
        · exact Or.inr rfl
      simp only [List.mem_cons] at h ⊢
      rcases h with h | h
      · rcases h2 with h2 | h2 <;> rw [h2] at h ⊢ <;> simp [h]
      · exact Or.inr (Or.inr h)

theorem bestHypothesis_mem (chroma : List ℚ) :
    bestHypothesis chroma ∈ keyScores chroma := by
  unfold bestHypothesis
  have h := foldl_best_mem (keyScores chroma)
    ⟨0, Mode.major, calculate_fast_key_score chroma 0 Mode.major⟩
  simp only [List.mem_cons] at h
  rcases h with h | h
  · rw [h]
    unfold keyScores
    simp only [List.mem_flatMap, List.mem_range]
    exact ⟨0, by norm_num, by simp⟩
  · exact h

theorem keyScores_mem_spec (chroma : List ℚ) (h : KeyHypothesis)
    (hm : h ∈ keyScores chroma) :
    h.root < 12 ∧ h.score = calculate_fast_key_score chroma h.root h.mode := by
  unfold keyScores at hm
  simp only [List.mem_flatMap, List.mem_range, List.mem_cons,
    List.not_mem_nil, or_false] at hm
  obtain ⟨root, hr, hcase⟩ := hm
  rcases hcase with rfl | rfl
  · exact ⟨hr, rfl⟩
  · exact ⟨hr, rfl⟩

theorem track_beats_confidence_range (onsets : List ℚ) (est t : ℚ) :
    0 ≤ (track_beats onsets est t).confidence ∧
    (track_beats onsets est t).confidence ≤ 1 := by
  simp only [track_beats, coldStartHold, fallbackHold]
  split_ifs with a b c
  · norm_num
  · exact ⟨le_min (by norm_num) (by positivity), min_le_left 1 _⟩
  · norm_num
  · norm_num

set_option maxRecDepth 8000 in
/-- Claim C2: every confidence the engine publishes is inside [0,1]: the
beat tracker's confidence is always in [0,1], and on any state whose
feature history holds only valid frames (chroma of 12 non-negative
entries summing to at most 1), whenever `analyze_key` returns an
estimate — including through the relaxed acceptance tier — its
confidence lies in [0,1]. -/
theorem c2_confidence_in_unit_interval :
    (∀ (onsets : List ℚ) (est t : ℚ),
      0 ≤ (track_beats onsets est t).confidence ∧
      (track_beats onsets est t).confidence ≤ 1) ∧
    (∀ (s : EngineState) (f : MockAudioFeatures),
      0 ≤ ((ingest s f).2.1).confidence ∧
      ((ingest s f).2.1).confidence ≤ 1) ∧
    (∀ s : EngineState, (∀ f ∈ s.feature_history, validFrame f) →
      ∀ est : KeyResult, analyze_key s = some est →
      0 ≤ est.confidence ∧ est.confidence ≤ 1) := by
  refine ⟨fun onsets est t => track_beats_confidence_range onsets est t, ?_, ?_⟩
  · intro s f
    simp only [ingest, analyze_beat]
    split
    · constructor <;> norm_num
    · exact track_beats_confidence_range _ _ _
  · intro s hv est hsome
    simp only [analyze_key] at hsome
    by_cases hlen : s.feature_history.length < 1
    · rw [if_pos hlen] at hsome
      exact absurd hsome (by simp)
    · rw [if_neg hlen] at hsome
      have hne : s.feature_history ≠ [] := by
        intro hnil
        rw [hnil] at hlen
        simp at hlen
      have hmem : bestKeyHypothesis s.feature_history
          ∈ keyScores (weightedChroma s.feature_history) := by
        unfold bestKeyHypothesis
        exact bestHypothesis_mem _
      have hspec := keyScores_mem_spec _ _ hmem
      have hwv := weightedChroma_props s.feature_history hv hne
      have hb := score_bounds (weightedChroma s.feature_history) hwv.1
        hwv.2.1 hwv.2.2 (bestKeyHypothesis s.feature_history).root hspec.1
        (bestKeyHypothesis s.feature_history).mode
      rw [← hspec.2] at hb
      split_ifs at hsome with h1 h2
      · obtain rfl := Option.some.inj hsome
        exact hb
      · obtain rfl := Option.some.inj hsome
        constructor
        · exact mul_nonneg hb.1 (by norm_num)
        · nlinarith [hb.1, hb.2]

end RealtimeAnalysis

namespace RealtimeAnalysis

/-- A single valid frame with uniform chroma 1/12. -/
def uniformFrame12 : MockAudioFeatures := ⟨List.replicate 12 (1/12), [], 0⟩

/-- A state holding exactly one valid uniform frame. -/
def stUniform : EngineState := ⟨[uniformFrame12], [], 120, true⟩

/-- A state whose onset history holds two salient peaks 10 ticks apart
(the 258-bpm rejection scenario). -/
def st258 : EngineState :=
  ⟨[], [0, 1, 0, 0, 0, 0, 0, 0, 0, 0, 0, 1, 0], 120, true⟩

/-- Onset history with peaks at indices 1 and 21 (gap 20, bpm 129). -/
def c8wOnsets : List ℚ :=
  [0, 1, 0, 0, 0, 0, 0, 0, 0, 0, 0, 0, 0, 0, 0, 0, 0, 0, 0, 0, 0, 1, 0]

set_option maxRecDepth 200000 in
theorem c2_witness :
    0 ≤ (KeyResult.mk 0 Mode.major (1/10)).confidence ∧
    (KeyResult.mk 0 Mode.major (1/10)).confidence ≤ 1 :=
  c2_confidence_in_unit_interval.2.2 stUniform
    (by with_unfolding_all decide) ⟨0, Mode.major, 1/10⟩
    (by with_unfolding_all decide)

set_option maxRecDepth 200000 in
theorem c3_witness :
    (60 ≤ ((ingest st258 (flatFrame 0)).1).bpm_estimate ∧
      ((ingest st258 (flatFrame 0)).1).bpm_estimate ≤ 200) ∧
    (60 ≤ ((ingest st258 (flatFrame 0)).2.1).bpm ∧
      ((ingest st258 (flatFrame 0)).2.1).bpm ≤ 200) :=
  c3_bpm_invariant.2.1 st258 (flatFrame 0)
    (by with_unfolding_all decide) (by with_unfolding_all decide)

set_option maxRecDepth 200000 in
theorem c4_witness :
    track_beats [0, 0] 120 0 = coldStartHold 120 ∧
    track_beats [0, 0, 0] 120 (1/2) = fallbackHold 120 (1/2) :=
  ⟨(c4_hold_shapes [0, 0] 120 0).1 (by with_unfolding_all decide),
   (c4_hold_shapes [0, 0, 0] 120 (1/2)).2.1
     (by with_unfolding_all decide) (by with_unfolding_all decide)⟩

set_option maxRecDepth 200000 in
theorem c6_witness : analyze_key st16 = none :=
  (c6_two_tier st16 (by with_unfolding_all decide)).2.2
    (by with_unfolding_all decide) (by with_unfolding_all decide)

set_option maxRecDepth 200000 in
theorem c8_witness :
    track_beats c8wOnsets 120 (5/2) =
      ⟨bpmOf c8wOnsets, min 1 (((peakIndices c8wOnsets).length : ℚ) / 10),
        pymod (5/2) 1, ⌊(5/2 : ℚ)⌋ % 4 + 1⟩ :=
  c8_success_formula.2 c8wOnsets 120 (5/2)
    (by with_unfolding_all decide) (by with_unfolding_all decide)
    (by with_unfolding_all decide) (by with_unfolding_all decide)

theorem c9_witness :
    pushCap 2 [(0 : ℚ)] 1 = [0, 1] ∧ pushCap 1 [(0 : ℚ)] 1 = [1] :=
  ⟨(c9_history_capacity.2 2 [0] 1).1 (by norm_num),
   (c9_history_capacity.2 1 [0] 1).2 (by norm_num) (by norm_num)⟩

theorem c10_witness :
    totalWeightQ 1 = (((1 : ℕ) : ℚ) + 1) / 2 ∧ 0 < totalWeightQ 1 :=
  c10_no_degenerate_branches.1 1 (by norm_num)

end RealtimeAnalysis
